import Mathlib

/-!
Shallow embedding of the webchord generative-music core:
the Euclidean rhythm generator, the chord/scale model, the tension-curve
generator, the weighted chord selection of the batch generator, the live
chord-suggestion engine, and the cadence post-pass of the batch generator.

Conventions used throughout:
* JS `number` values that stay integral are embedded as `Nat`/`Int`;
  fractional values as `ℚ`.
* `Math.random()` draws are passed in as explicit `ℚ` parameters
  (each draw is a value in `[0, 1)`).
* JS `x % n` on the non-negative operands that occur here agrees with
  `Int.emod`, and `Math.floor(x / n)` on non-negative operands agrees
  with integer division, which is how they are embedded.
* A JS value that can be `null` is embedded as an `Option`.
-/

namespace Webchord

/-! ### Euclidean rhythm generator (source: `euclideanRhythm`) -/

/-- bucket[i] = Math.floor((i * pulses) / steps). `Int`-valued so that the
sentinel value bucket[-1] = -1 used by the source is representable. -/
def bucketAt (steps pulses : Nat) (i : Nat) : Int :=
  ((i * pulses : Nat) : Int) / (steps : Int)

/-- The value compared against bucket[i]: bucket[i-1] for i > 0, else -1. -/
def prevBucket (steps pulses : Nat) (i : Nat) : Int :=
  if i > 0 then bucketAt steps pulses (i - 1) else -1

/-- Embedding of `euclideanRhythm(steps, pulses)`: early-outs for
pulses ≥ steps (all true) and pulses = 0 (all false), otherwise
pattern[i] = (bucket[i] ≠ bucket[i-1]) with bucket[-1] = -1. -/
def euclideanRhythm (steps pulses : Nat) : List Bool :=
  if pulses ≥ steps then List.replicate steps true
  else if pulses = 0 then List.replicate steps false
  else (List.range steps).map fun i =>
    decide (bucketAt steps pulses i ≠ prevBucket steps pulses i)

/-! ### Chord/scale model (source: `chords` module) -/

/-- The twelve chromatic keys (the `Key` string union of the source). -/
inductive Key where
  | C | Cs | D | Ds | E | F | Fs | G | Gs | A | As | B
deriving DecidableEq

/-- The `NOTES` array. -/
def NOTES : List Key := [.C, .Cs, .D, .Ds, .E, .F, .Fs, .G, .Gs, .A, .As, .B]

/-- `getNoteIndex(note)` = `NOTES.indexOf(note)`. -/
def getNoteIndex (note : Key) : Nat := NOTES.indexOf note

/-- MAJOR_SCALE = [0, 2, 4, 5, 7, 9, 11]. -/
def MAJOR_SCALE : List Nat := [0, 2, 4, 5, 7, 9, 11]

/-- The `ChordType` string union of the source. -/
inductive ChordType where
  | major | minor | dom7 | maj7 | min7 | sus2 | sus4 | aug | dim
  | maj9 | min9 | maj6
deriving DecidableEq

/-- CHORD_INTERVALS: semitone offset list per chord quality. -/
def CHORD_INTERVALS : ChordType → List Nat
  | .major => [0, 4, 7]
  | .minor => [0, 3, 7]
  | .dom7 => [0, 4, 7, 10]
  | .maj7 => [0, 4, 7, 11]
  | .min7 => [0, 3, 7, 10]
  | .sus2 => [0, 2, 7]
  | .sus4 => [0, 5, 7]
  | .aug => [0, 4, 8]
  | .dim => [0, 3, 6]
  | .maj9 => [0, 4, 7, 11, 14]
  | .min9 => [0, 3, 7, 10, 14]
  | .maj6 => [0, 4, 7, 9]

/-- NASHVILLE_CHORDS: default quality per scale degree 1..7 (the record
has no other keys, hence `Option`). -/
def NASHVILLE_CHORDS (degree : Int) : Option ChordType :=
  if degree = 1 then some .major
  else if degree = 2 then some .minor
  else if degree = 3 then some .minor
  else if degree = 4 then some .major
  else if degree = 5 then some .major
  else if degree = 6 then some .minor
  else if degree = 7 then some .dim
  else none

/-- The error thrown by `generateChord` for a degree outside [1,7]. -/
inductive ChordError where
  | invalidDegree
deriving DecidableEq

/-- One step of the inversion loop: shift the lowest pitch off the front
and push it back raised an octave. -/
def invertOnce (notes : List Int) : List Int :=
  match notes with
  | [] => []
  | lowest :: rest => rest ++ [lowest + 12]

/-- The inversion block of `generateChord`: applied only when
0 < inversion < midiNotes.length, otherwise the notes pass unchanged. -/
def applyInversion (inversion : Nat) (midiNotes : List Int) : List Int :=
  if inversion > 0 ∧ inversion < midiNotes.length then
    invertOnce^[inversion] midiNotes
  else midiNotes

/-- Embedding of `generateChord(key, scaleDegree, chordType?, inversion,
octave)`. Throwing is embedded as `Except.error`; the `|| CHORD_INTERVALS.major`
fallback of the source is the `.getD .major` below. -/
def generateChord (key : Key) (scaleDegree : Int) (chordType : Option ChordType)
    (inversion : Nat) (octave : Int) : Except ChordError (List Int) :=
  if scaleDegree < 1 ∨ scaleDegree > 7 then .error .invalidDegree
  else
    let keyIndex : Int := (getNoteIndex key : Int)
    let scaleRootSemitones : Int :=
      (((MAJOR_SCALE.get? (scaleDegree - 1).toNat).getD 0 : Nat) : Int)
    let chordRootSemitones : Int := (keyIndex + scaleRootSemitones) % 12
    let baseChordType : ChordType :=
      (chordType.orElse fun _ => NASHVILLE_CHORDS scaleDegree).getD .major
    let intervals : List Nat := CHORD_INTERVALS baseChordType
    let midiNotes : List Int := intervals.map fun interval =>
      let semitones : Int := chordRootSemitones + (interval : Int)
      let noteIndex : Int := semitones % 12
      let octaveOffset : Int := semitones / 12
      (octave + 1) * 12 + noteIndex + octaveOffset * 12
    .ok (applyInversion inversion midiNotes)

/-! ### Tension-curve generator (source: `generateTensionCurve`) -/

/-- JS division embedded partially: a zero denominator yields no finite
value (the source's 0/0 case produces NaN), embedded as `none`. -/
def jsDiv (a b : ℚ) : Option ℚ :=
  if b = 0 then none else some (a / b)

/-- Embedding of `generateTensionCurve(length, type)`. `Math.sin` is kept
abstract: `sinPi x` stands for sin(x·π), so the source's
`Math.sin(normalized * Math.PI)` is `sinPi normalized`, and its
`Math.sin(normalized * Math.PI * 2)` is `sinPi (normalized * 2)`.
`rand i` is the `Math.random()` draw of iteration i of the `random` case.
Entries are `Option ℚ`: `none` marks a non-finite (NaN) value, which the
source produces whenever `i / (length - 1)` divides by zero. -/
def generateTensionCurve (length : Nat) (type : String)
    (sinPi : ℚ → ℚ) (rand : Nat → ℚ) : List (Option ℚ) :=
  match type with
  | "arc" =>
    (List.range length).map fun (i : Nat) =>
      (jsDiv (i : ℚ) ((length : ℚ) - 1)).map fun normalized =>
        sinPi normalized
  | "wave" =>
    (List.range length).map fun (i : Nat) =>
      (jsDiv (i : ℚ) ((length : ℚ) - 1)).map fun normalized =>
        (sinPi (normalized * 2) + 1) / 2
  | "buildup" =>
    (List.range length).map fun (i : Nat) =>
      jsDiv (i : ℚ) ((length : ℚ) - 1)
  | "release" =>
    (List.range length).map fun (i : Nat) =>
      (jsDiv (i : ℚ) ((length : ℚ) - 1)).map fun normalized =>
        1 - normalized
  | "random" =>
    (List.range length).map fun (i : Nat) =>
      (jsDiv (i : ℚ) (length : ℚ)).map fun x =>
        let base := sinPi (x * 3)
        let noise := (rand i - 0.5) * 0.3
        max 0 (min 1 ((base + 1) / 2 + noise))
  | _ => List.replicate length (some 0.5)

/-! ### Markov tables and weighted selection (source: procedural generator) -/

/-- CHORD_TENSION_MAP: static per-degree tension. Only keys 1..7 exist in
the source record; other degrees never reach it. -/
def CHORD_TENSION_MAP (degree : Nat) : ℚ :=
  match degree with
  | 1 => 0.1
  | 2 => 0.4
  | 3 => 0.5
  | 4 => 0.3
  | 5 => 0.8
  | 6 => 0.4
  | 7 => 0.9
  | _ => 0

/-- MARKOV_2ND_ORDER of the procedural generator, keyed by the
(secondPrevious, previous) pair that the source renders as "a-b". -/
def MARKOV_2ND_ORDER : List ((Nat × Nat) × List (Nat × ℚ)) := [
  ((1, 5), [(6, 0.50), (4, 0.30), (1, 0.15), (2, 0.05)]),
  ((5, 6), [(4, 0.60), (1, 0.25), (5, 0.10), (2, 0.05)]),
  ((6, 4), [(1, 0.45), (5, 0.40), (2, 0.10), (6, 0.05)]),
  ((4, 1), [(5, 0.50), (6, 0.25), (4, 0.15), (2, 0.10)]),
  ((2, 5), [(1, 0.70), (6, 0.15), (4, 0.10), (3, 0.05)]),
  ((6, 2), [(5, 0.60), (1, 0.25), (4, 0.10), (6, 0.05)]),
  ((1, 4), [(5, 0.50), (1, 0.25), (2, 0.15), (6, 0.10)]),
  ((4, 5), [(1, 0.70), (6, 0.20), (4, 0.05), (3, 0.05)]),
  ((1, 3), [(6, 0.40), (4, 0.30), (2, 0.20), (5, 0.10)]),
  ((3, 6), [(2, 0.40), (4, 0.35), (5, 0.15), (1, 0.10)])]

/-- MARKOV_1ST_ORDER fallback transitions of the procedural generator. -/
def MARKOV_1ST_ORDER : List (Nat × List (Nat × ℚ)) := [
  (1, [(4, 0.30), (5, 0.25), (6, 0.20), (2, 0.15), (1, 0.05), (3, 0.03), (7, 0.02)]),
  (2, [(5, 0.50), (1, 0.20), (4, 0.15), (6, 0.10), (3, 0.03), (2, 0.01), (7, 0.01)]),
  (3, [(6, 0.40), (4, 0.25), (2, 0.15), (5, 0.10), (1, 0.07), (3, 0.02), (7, 0.01)]),
  (4, [(5, 0.35), (1, 0.30), (2, 0.15), (6, 0.10), (4, 0.05), (3, 0.03), (7, 0.02)]),
  (5, [(1, 0.50), (6, 0.25), (4, 0.12), (2, 0.08), (5, 0.03), (3, 0.01), (7, 0.01)]),
  (6, [(4, 0.30), (2, 0.25), (5, 0.20), (1, 0.15), (3, 0.05), (6, 0.03), (7, 0.02)]),
  (7, [(1, 0.70), (3, 0.15), (6, 0.10), (5, 0.03), (4, 0.01), (2, 0.01), (7, 0.00)])]

/-- Look a row up by key in an association list (a JS record access). -/
def rowLookup (table : List (Nat × List (Nat × ℚ))) (k : Nat) :
    Option (List (Nat × ℚ)) :=
  (table.find? fun row => row.1 == k).map fun row => row.2

/-- Look a row up by ordered pair ("a-b" pattern key of the source). -/
def pairLookup (table : List ((Nat × Nat) × List (Nat × ℚ))) (k : Nat × Nat) :
    Option (List (Nat × ℚ)) :=
  (table.find? fun row => row.1 == k).map fun row => row.2

/-- JS objects iterate integer-like keys in ascending numeric order;
this models `Object.entries` on the weight records used here. -/
def objEntries (entries : List (Nat × ℚ)) : List (Nat × ℚ) :=
  entries.mergeSort fun a b => a.1 ≤ b.1

/-- Σ of the weights (`Object.values(weights).reduce(+)`). -/
def totalWeight (weights : List (Nat × ℚ)) : ℚ :=
  (weights.map fun kw => kw.2).sum

/-- The selection walk: subtract each weight from the running draw and
return the first degree at which it is ≤ 0; `none` if the entries run out. -/
def walkWeights : List (Nat × ℚ) → ℚ → Option Nat
  | [], _ => none
  | (k, w) :: rest, u => if u - w ≤ 0 then some k else walkWeights rest (u - w)

/-- The weighted random selection at the tail of `selectChordForTension`
(draw `u = r · Σweights` with r = `Math.random()`, walk the entries,
fall back to the tonic when the walk returns nothing). -/
def weightedSelect (weights : List (Nat × ℚ)) (r : ℚ) : Nat :=
  (walkWeights weights (r * totalWeight weights)).getD 1

/-- The base weight record of `selectChordForTension`: for a previous
chord, the 2nd-order Markov row when the (secondPrevious, previous)
pattern is in the table, else the 1st-order row (or nothing for an
unknown degree); without a previous chord, the fixed start record
{1: 0.6, 5: 0.3, 4: 0.1}. Entries are carried in ascending key order,
matching JS object iteration. -/
def markovWeights (previousChord secondPreviousChord : Option Nat) :
    List (Nat × ℚ) :=
  match previousChord with
  | none => objEntries [(1, 0.6), (5, 0.3), (4, 0.1)]
  | some prev =>
    let viaPattern : Option (List (Nat × ℚ)) :=
      match secondPreviousChord with
      | some sp => pairLookup MARKOV_2ND_ORDER (sp, prev)
      | none => none
    match viaPattern with
    | some row => objEntries row
    | none => objEntries ((rowLookup MARKOV_1ST_ORDER prev).getD [])

/-- The tension-matching reweighting pass of `selectChordForTension`:
weight *= 1 + (1 - |targetTension - chordTension|) * 2. -/
def adjustWeightsForTension (targetTension : ℚ) (weights : List (Nat × ℚ)) :
    List (Nat × ℚ) :=
  weights.map fun kw =>
    let degree := kw.1
    let chordTension := CHORD_TENSION_MAP degree
    let tensionDiff := |targetTension - chordTension|
    let tensionMatch := 1 - tensionDiff
    (degree, kw.2 * (1 + tensionMatch * 2))

/-- The creativity pass of `selectChordForTension` (applied only when
creativity > 0): weight *= 1 + rand·creativity·0.5, and degrees 3 and 7
get an extra ×(1 + creativity). `rand d` is the per-degree
`Math.random()` draw. -/
def applyCreativityBoost (creativity : ℚ) (rand : Nat → ℚ)
    (weights : List (Nat × ℚ)) : List (Nat × ℚ) :=
  if creativity > 0 then
    weights.map fun kw =>
      let degree := kw.1
      let randomBoost := 1 + rand degree * creativity * 0.5
      let w := kw.2 * randomBoost
      (degree, if degree = 3 ∨ degree = 7 then w * (1 + creativity) else w)
  else weights

/-- Embedding of `selectChordForTension(targetTension, previousChord,
secondPreviousChord, creativity)`: base Markov weights, the tension
reweighting, the creativity boost, then the weighted random selection.
`rsel` is the final `Math.random()` selection draw. -/
def selectChordForTension (targetTension : ℚ)
    (previousChord secondPreviousChord : Option Nat) (creativity : ℚ)
    (rand : Nat → ℚ) (rsel : ℚ) : Nat :=
  weightedSelect
    (applyCreativityBoost creativity rand
      (adjustWeightsForTension targetTension
        (markovWeights previousChord secondPreviousChord))) rsel

/-! ### Chord suggestion engine (source: suggestion module) -/

/-- The suggestion categories. -/
inductive Category where
  | strong | moderate | adventurous
deriving DecidableEq

/-- `ChordSuggestion`: degree is the 0-based index 0..6 (I..vii°). -/
structure ChordSuggestion where
  degree : Nat
  probability : ℚ
  reason : String
  category : Category
deriving DecidableEq

/-- `ChordHistory`: a played degree with its timestamp. -/
structure ChordHistory where
  degree : Nat
  timestamp : ℚ
deriving DecidableEq

/-- COMMON_PROGRESSIONS: 1st-order transition table, 0-based degrees. -/
def COMMON_PROGRESSIONS : List (Nat × List (Nat × ℚ)) := [
  (0, [(3, 0.35), (4, 0.25), (5, 0.20), (1, 0.10), (0, 0.05), (2, 0.03), (6, 0.02)]),
  (1, [(4, 0.40), (0, 0.25), (3, 0.15), (5, 0.10), (1, 0.05), (2, 0.03), (6, 0.02)]),
  (2, [(5, 0.35), (3, 0.25), (0, 0.20), (4, 0.10), (1, 0.05), (2, 0.03), (6, 0.02)]),
  (3, [(0, 0.30), (4, 0.25), (1, 0.20), (5, 0.15), (3, 0.05), (2, 0.03), (6, 0.02)]),
  (4, [(0, 0.50), (5, 0.20), (3, 0.15), (1, 0.08), (4, 0.04), (2, 0.02), (6, 0.01)]),
  (5, [(3, 0.30), (1, 0.25), (4, 0.20), (0, 0.15), (5, 0.05), (2, 0.03), (6, 0.02)]),
  (6, [(0, 0.60), (5, 0.20), (2, 0.10), (3, 0.05), (4, 0.03), (1, 0.01), (6, 0.01)])]

/-- SECOND_ORDER_PATTERNS: 2nd-order table keyed by the (secondLast, last)
pair the source renders as "a-b". -/
def SECOND_ORDER_PATTERNS : List ((Nat × Nat) × List (Nat × ℚ)) := [
  ((0, 4), [(5, 0.50), (3, 0.25), (0, 0.15), (1, 0.05), (4, 0.03), (2, 0.01), (6, 0.01)]),
  ((4, 5), [(3, 0.55), (0, 0.20), (4, 0.15), (1, 0.05), (5, 0.03), (2, 0.01), (6, 0.01)]),
  ((5, 3), [(0, 0.40), (4, 0.35), (1, 0.10), (5, 0.08), (3, 0.04), (2, 0.02), (6, 0.01)]),
  ((3, 0), [(4, 0.45), (3, 0.20), (5, 0.15), (1, 0.10), (0, 0.05), (2, 0.03), (6, 0.02)]),
  ((0, 3), [(4, 0.40), (0, 0.25), (1, 0.15), (5, 0.10), (3, 0.05), (2, 0.03), (6, 0.02)]),
  ((3, 4), [(0, 0.60), (5, 0.20), (3, 0.10), (1, 0.05), (4, 0.03), (2, 0.01), (6, 0.01)]),
  ((1, 4), [(0, 0.55), (5, 0.20), (3, 0.12), (1, 0.06), (4, 0.04), (2, 0.02), (6, 0.01)]),
  ((5, 1), [(4, 0.50), (3, 0.25), (0, 0.12), (5, 0.08), (1, 0.03), (2, 0.01), (6, 0.01)]),
  ((2, 5), [(1, 0.40), (3, 0.35), (4, 0.12), (0, 0.08), (5, 0.03), (2, 0.01), (6, 0.01)]),
  ((0, 5), [(3, 0.45), (1, 0.25), (4, 0.15), (0, 0.08), (5, 0.04), (2, 0.02), (6, 0.01)])]

/-- Probability lookup inside a row (`row?.[degree]`). -/
def cellLookup (row : Option (List (Nat × ℚ))) (degree : Nat) : Option ℚ :=
  row.bind fun entries =>
    (entries.find? fun e => e.1 == degree).map fun e => e.2

/-- JS `v || d`: `0` (and a missing value) is falsy and yields the default. -/
def jsOr (v : Option ℚ) (d : ℚ) : ℚ :=
  match v with
  | none => d
  | some x => if x = 0 then d else x

/-- `getCircleOfFifthsBonus(from, to)` with `frm`/`dst` for the source's
`from`/`to` (both reserved words). On the degree domain used here
`to - from + 7` is non-negative, so the JS `%` agrees with `Int.emod`. -/
def getCircleOfFifthsBonus (frm dst : Int) : ℚ :=
  if (dst - frm + 7) % 7 = 4 then 0.15
  else if (dst - frm + 7) % 7 = 3 then 0.12
  else if (dst - frm).natAbs = 1 then 0.08
  else if dst = 0 then 0.10
  else 0

/-- HARMONIC_FUNCTION.tonic = [0, 2, 5]. -/
def HARMONIC_FUNCTION_tonic : List Int := [0, 2, 5]

/-- HARMONIC_FUNCTION.subdominant = [1, 3]. -/
def HARMONIC_FUNCTION_subdominant : List Int := [1, 3]

/-- HARMONIC_FUNCTION.dominant = [4, 6]. -/
def HARMONIC_FUNCTION_dominant : List Int := [4, 6]

/-- `getFunctionalHarmonyBonus(from, to)`. -/
def getFunctionalHarmonyBonus (frm dst : Int) : ℚ :=
  if frm ∈ HARMONIC_FUNCTION_dominant ∧ dst ∈ HARMONIC_FUNCTION_tonic then 0.20
  else if frm ∈ HARMONIC_FUNCTION_subdominant ∧ dst ∈ HARMONIC_FUNCTION_dominant then 0.15
  else if frm ∈ HARMONIC_FUNCTION_tonic ∧ dst ∈ HARMONIC_FUNCTION_subdominant then 0.12
  else 0

/-- A score accumulator entry of the suggestion loop. -/
structure ScoreEntry where
  score : ℚ
  reasons : List String
deriving DecidableEq

/-- The per-degree score of the non-empty-history branch of
`suggestNextChords` (steps 1-4 of the loop body followed by the
`addCreativityBonus` pass, whose `Math.random()` draw for degree d is
`r d`). -/
def scoreFor (last : ChordHistory) (secondLast : Option ChordHistory)
    (r : Nat → ℚ) (degree : Nat) : ScoreEntry :=
  let markovProb := jsOr (cellLookup (rowLookup COMMON_PROGRESSIONS last.degree) degree) 0.01
  let score1 := markovProb * 0.40
  let reasons1 : List String := if markovProb > 0.2 then ["Common progression"] else []
  let second : ℚ × List String :=
    match secondLast with
    | some sl =>
      let secondOrderProb :=
        jsOr (cellLookup (pairLookup SECOND_ORDER_PATTERNS (sl.degree, last.degree)) degree) 0.01
      (secondOrderProb * 0.30,
        if secondOrderProb > 0.3 then ["Popular pattern"] else [])
    | none => (0, [])
  let fifthsBonus := getCircleOfFifthsBonus (last.degree : Int) (degree : Int)
  let reasons3 : List String := if fifthsBonus > 0.10 then ["Strong voice leading"] else []
  let functionBonus := getFunctionalHarmonyBonus (last.degree : Int) (degree : Int)
  let reasons4 : List String := if functionBonus > 0.10 then ["Natural resolution"] else []
  let randomBoost := r degree * 0.15 + 0.05
  let creativityExtra : ℚ := if degree = 2 ∨ degree = 6 then 0.1 else 0
  let reasons5 : List String := if degree = 2 ∨ degree = 6 then ["Creative choice"] else []
  { score := score1 + second.1 + fifthsBonus + functionBonus * 0.7
      + randomBoost + creativityExtra,
    reasons := reasons1 ++ second.2 ++ reasons3 ++ reasons4 ++ reasons5 }

/-- Total score over the seven degrees
(`Object.values(scores).reduce(+)`). -/
def totalScoreFor (last : ChordHistory) (secondLast : Option ChordHistory)
    (r : Nat → ℚ) : ℚ :=
  (((List.range 7).map fun d => scoreFor last secondLast r d).map
    fun e => e.score).sum

/-- The full normalized 7-degree suggestion list, in degree order, before
sorting and top-4 truncation. -/
def fullSuggestions (last : ChordHistory) (secondLast : Option ChordHistory)
    (r : Nat → ℚ) : List ChordSuggestion :=
  let totalScore := totalScoreFor last secondLast r
  (List.range 7).map fun degree =>
    let data := scoreFor last secondLast r degree
    let prob := data.score / totalScore
    let joined := String.intercalate ", " data.reasons
    { degree := degree,
      probability := prob,
      reason := if joined = "" then "Possible choice" else joined,
      category :=
        if prob > 0.3 then .strong
        else if prob > 0.15 then .moderate
        else .adventurous }

/-- The `.sort((a, b) => b.probability - a.probability)` calls: a stable
sort by descending probability. -/
def byProbDesc (l : List ChordSuggestion) : List ChordSuggestion :=
  l.mergeSort fun a b => b.probability ≤ a.probability

/-- The fixed empty-history starter set of `suggestNextChords`. -/
def startOptions : List ChordSuggestion := [
  { degree := 0, probability := 0.35, reason := "Tonic (I) - Classic start", category := .strong },
  { degree := 4, probability := 0.25, reason := "Dominant (V) - Bold start", category := .strong },
  { degree := 3, probability := 0.20, reason := "Subdominant (IV) - Warm start", category := .moderate },
  { degree := 5, probability := 0.12, reason := "vi - Melancholic start", category := .moderate },
  { degree := 1, probability := 0.08, reason := "ii - Jazz influence", category := .adventurous }]

/-- `history.length > 1 ? history[history.length - 2] : null`. -/
def secondLastOf (history : List ChordHistory) : Option ChordHistory :=
  if history.length > 1 then history[history.length - 2]? else none

/-- Embedding of `suggestNextChords(history, bpm, currentTime)` (the bpm
and time arguments are unused by the source). Randomness is passed in:
`shuffled` is the outcome of the random-comparator shuffle of the
empty-history branch (the theorems constrain it to a permutation of
`startOptions`), and `r d` is the creativity draw for degree d. -/
def suggestNextChords (history : List ChordHistory)
    (shuffled : List ChordSuggestion) (r : Nat → ℚ) : List ChordSuggestion :=
  match history.getLast? with
  | none => byProbDesc (shuffled.take 3)
  | some lastChord =>
    (byProbDesc (fullSuggestions lastChord (secondLastOf history) r)).take 4

/-! ### Cadence post-pass of the batch generator
(source: `generateProceduralProgression`, step 5) -/

/-- `GenerativeSlot` of the procedural generator; `degree` is 1-based
1..7 or `none` for a rest. -/
structure GenerativeSlot where
  position : Nat
  degree : Option Nat
  velocity : ℚ
  duration : ℚ
  tension : ℚ
  swing : ℚ
  stagger : ℚ
deriving DecidableEq

/-- Index of the last slot whose degree is not null (what the source
finds via `result.reverse().find(s => s.degree !== null)`). -/
def lastFilledIdx? : List GenerativeSlot → Option Nat
  | [] => none
  | s :: rest =>
    match lastFilledIdx? rest with
    | some j => some (j + 1)
    | none => if s.degree.isSome then some 0 else none

/-- Step 5 of `generateProceduralProgression`: if the final non-rest
slot's degree is neither 1 (I) nor 5 (V), resolve it to the tonic when
the `Math.random()` draw `rand` is < 0.6. The source mutates the found
slot object in place; here the list is rebuilt with `List.set`. -/
def cadencePostPass (result : List GenerativeSlot) (rand : ℚ) :
    List GenerativeSlot :=
  match lastFilledIdx? result with
  | none => result
  | some i =>
    match result[i]? with
    | none => result
    | some lastFilledSlot =>
      if lastFilledSlot.degree ≠ some 1 ∧ lastFilledSlot.degree ≠ some 5
          ∧ rand < 0.6 then
        result.set i { lastFilledSlot with degree := some 1 }
      else result

/-! ## Theorems -/

/-! ### C1: Euclidean rhythm pulse count -/

theorem bucketAt_cast (s p i : Nat) : bucketAt s p i = ((i * p / s : Nat) : Int) := by
  rw [bucketAt]
  exact (Int.natCast_div _ _).symm

theorem natBucket_mono (s p i : Nat) : i * p / s ≤ (i + 1) * p / s :=
  Nat.div_le_div_right (Nat.mul_le_mul_right p (Nat.le_succ i))

theorem natBucket_step (s p i : Nat) (h : p < s) :
    (i + 1) * p / s ≤ i * p / s + 1 := by
  have hs : 0 < s := Nat.lt_of_le_of_lt (Nat.zero_le p) h
  have hp : p / s = 0 := Nat.div_eq_of_lt h
  have : (i + 1) * p = i * p + p := by ring
  rw [this, Nat.add_div hs, hp]
  split <;> omega

theorem natBucket_last (s p : Nat) (h1 : 1 ≤ p) (h2 : p < s) :
    (s - 1) * p / s = p - 1 := by
  have e2 : (s - 1) * p = s * p - p := by
    rw [Nat.sub_mul, Nat.one_mul]
  apply Nat.div_eq_of_lt_le
  · rw [e2, Nat.sub_mul, Nat.one_mul, Nat.mul_comm p s]
    exact Nat.sub_le_sub_left (Nat.le_of_lt h2) (s * p)
  · rw [e2]
    have hps : 0 < s * p := Nat.mul_pos (Nat.lt_of_le_of_lt (Nat.zero_le p) h2) h1
    calc s * p - p < s * p := Nat.sub_lt hps h1
    _ ≤ (p - 1 + 1) * s := by
        rw [Nat.sub_add_cancel h1, Nat.mul_comm]

theorem euclid_count_upto (s p : Nat) (hps : p < s) :
    ∀ n, 1 ≤ n → n ≤ s →
      (((List.range n).map fun i =>
          decide (bucketAt s p i ≠ prevBucket s p i)).count true)
        = (n - 1) * p / s + 1 := by
  intro n h1 h2
  induction n with
  | zero => omega
  | succ m ih =>
    rcases Nat.eq_or_lt_of_le h1 with h1' | h1'
    · -- m + 1 = 1: the single entry at i = 0 is a pulse
      have hm : m = 0 := by omega
      subst hm
      simp [List.range_succ, bucketAt, prevBucket]
    · -- m ≥ 1: peel the last entry off the range
      have hm1 : 1 ≤ m := by omega
      have hms : m ≤ s := by omega
      have ihm := ih hm1 hms
      rw [List.range_succ, List.map_append, List.count_append, ihm]
      have hcast : bucketAt s p m = ((m * p / s : Nat) : Int) := bucketAt_cast s p m
      have hprev : prevBucket s p m = (((m - 1) * p / s : Nat) : Int) := by
        rw [prevBucket, if_pos (by omega : m > 0)]
        exact bucketAt_cast s p (m - 1)
      have hmono : (m - 1) * p / s ≤ m * p / s := by
        have := natBucket_mono s p (m - 1)
        rwa [Nat.sub_add_cancel hm1] at this
      have hstep : m * p / s ≤ (m - 1) * p / s + 1 := by
        have := natBucket_step s p (m - 1) hps
        rwa [Nat.sub_add_cancel hm1] at this
      simp only [List.map_cons, List.map_nil, List.count_cons, List.count_nil,
        Nat.add_sub_cancel]
      by_cases hch : m * p / s = (m - 1) * p / s
      · have hPeq : bucketAt s p m = prevBucket s p m := by
          rw [hcast, hprev, hch]
        have hbool : decide (bucketAt s p m ≠ prevBucket s p m) = false :=
          decide_eq_false fun hne => hne hPeq
        rw [hbool, hch]
        simp
      · have hchv : m * p / s = (m - 1) * p / s + 1 := by omega
        have hPne : bucketAt s p m ≠ prevBucket s p m := by
          rw [hcast, hprev]
          intro heq
          exact hch (Nat.cast_inj.mp heq)
        have hbool : decide (bucketAt s p m ≠ prevBucket s p m) = true :=
          decide_eq_true hPne
        rw [hbool, hchv]
        simp

/-- C1: for 0 ≤ pulses ≤ steps, `euclideanRhythm` returns a boolean list of
length `steps` with exactly `pulses` true entries; pulses = steps gives all
true and pulses = 0 gives all false. -/
theorem euclideanRhythm_pulse_count (steps pulses : Nat) (h : pulses ≤ steps) :
    (euclideanRhythm steps pulses).length = steps ∧
    (euclideanRhythm steps pulses).count true = pulses ∧
    (pulses = steps → euclideanRhythm steps pulses = List.replicate steps true) ∧
    (pulses = 0 → euclideanRhythm steps pulses = List.replicate steps false) := by
  rcases Nat.eq_or_lt_of_le h with heq | hlt
  · -- pulses = steps: the all-true early-out
    subst heq
    rw [euclideanRhythm, if_pos (Nat.le_refl _)]
    refine ⟨List.length_replicate _ _, ?_, fun _ => rfl, fun h0 => by rw [h0]; simp⟩
    simp
  · rcases Nat.eq_zero_or_pos pulses with h0 | hpos
    · -- pulses = 0: the all-false early-out
      subst h0
      rw [euclideanRhythm, if_neg (by omega), if_pos rfl]
      refine ⟨List.length_replicate _ _, ?_, fun hq => by omega, fun _ => rfl⟩
      simp [List.count_replicate]
    · -- 0 < pulses < steps: the bucket pattern has exactly `pulses` pulses
      rw [euclideanRhythm, if_neg (by omega), if_neg (by omega)]
      refine ⟨by simp, ?_, fun hq => by omega, fun hq => by omega⟩
      have hs1 : 1 ≤ steps := by omega
      rw [euclid_count_upto steps pulses hlt steps hs1 (Nat.le_refl _)]
      rw [natBucket_last steps pulses hpos hlt]
      omega

/-- C1 witness: steps = 16, pulses = 4. -/
theorem euclideanRhythm_pulse_count_witness :
    4 ≤ 16 ∧
    ((euclideanRhythm 16 4).length = 16 ∧ (euclideanRhythm 16 4).count true = 4) :=
  ⟨by decide,
    ⟨(euclideanRhythm_pulse_count 16 4 (by decide)).1,
     (euclideanRhythm_pulse_count 16 4 (by decide)).2.1⟩⟩

/-! ### C2: the tonic bonus of `getCircleOfFifthsBonus` does not stack -/

/-- C2 counterexample: the transition IV → I (from = 3, to = 0) is a
perfect 5th up to the tonic, yet the bonus is 0.15 alone, not
0.15 + 0.10 as the claim states. -/
theorem getCircleOfFifthsBonus_no_stacking :
    ((0 : Int) - 3 + 7) % 7 = 4 ∧
    getCircleOfFifthsBonus 3 0 = 0.15 ∧
    getCircleOfFifthsBonus 3 0 ≠ 0.15 + 0.10 := by
  refine ⟨by decide, ?_, ?_⟩ <;> norm_num [getCircleOfFifthsBonus]

/-- C2 amended: the branches of `getCircleOfFifthsBonus` are exclusive
(first match wins): when the destination is the tonic and the motion is
also a perfect 5th up, a perfect 4th up, or step-wise, the bonus equals
the interval bonus alone — 0.15, 0.12 or 0.08 — and the +0.10 tonic bonus
is only a fallback for motions to the tonic matching no interval rule. -/
theorem getCircleOfFifthsBonus_tonic_exclusive (frm : Int)
    (h0 : 0 ≤ frm) (h6 : frm ≤ 6) :
    (((0 : Int) - frm + 7) % 7 = 4 → getCircleOfFifthsBonus frm 0 = 0.15) ∧
    (((0 : Int) - frm + 7) % 7 = 3 → getCircleOfFifthsBonus frm 0 = 0.12) ∧
    (((0 : Int) - frm).natAbs = 1 → getCircleOfFifthsBonus frm 0 = 0.08) := by
  interval_cases frm <;>
    refine ⟨fun h => ?_, fun h => ?_, fun h => ?_⟩ <;>
      first
      | rfl
      | exact absurd h (by decide)

/-- C2 witness: frm = 3 (IV → I, a perfect 5th up) gets exactly 0.15. -/
theorem getCircleOfFifthsBonus_tonic_exclusive_witness :
    (0 ≤ (3 : Int) ∧ (3 : Int) ≤ 6) ∧ getCircleOfFifthsBonus 3 0 = 0.15 :=
  ⟨⟨by decide, by decide⟩,
    (getCircleOfFifthsBonus_tonic_exclusive 3 (by decide) (by decide)).1 (by decide)⟩

/-! ### C7 and C8: the chord model -/

theorem invertOnce_length (l : List Int) : (invertOnce l).length = l.length := by
  cases l <;> simp [invertOnce]

theorem invertOnce_pitchClasses (l : List Int) :
    Multiset.ofList ((invertOnce l).map fun x => x % 12)
      = Multiset.ofList (l.map fun x => x % 12) := by
  cases l with
  | nil => rfl
  | cons a rest =>
    refine Multiset.coe_eq_coe.mpr ?_
    simp only [invertOnce, List.map_append, List.map_cons, List.map_nil]
    have h12 : (a + 12) % 12 = a % 12 := by omega
    rw [h12]
    exact List.perm_append_singleton _ _

theorem invertIter_length (k : Nat) (l : List Int) :
    (invertOnce^[k] l).length = l.length := by
  induction k generalizing l with
  | zero => rfl
  | succ m ih =>
    rw [Function.iterate_succ_apply, ih (invertOnce l), invertOnce_length]

theorem invertIter_pitchClasses (k : Nat) (l : List Int) :
    Multiset.ofList ((invertOnce^[k] l).map fun x => x % 12)
      = Multiset.ofList (l.map fun x => x % 12) := by
  induction k generalizing l with
  | zero => rfl
  | succ m ih =>
    rw [Function.iterate_succ_apply, ih (invertOnce l), invertOnce_pitchClasses]

theorem generateChord_ok_shape (key : Key) (deg : Int) (q : Option ChordType)
    (inv : Nat) (oct : Int) (h1 : 1 ≤ deg) (h2 : deg ≤ 7) :
    ∃ midi, generateChord key deg q 0 oct = .ok midi ∧
      generateChord key deg q inv oct = .ok (applyInversion inv midi) := by
  have hc : ¬(deg < 1 ∨ deg > 7) := by omega
  simp only [generateChord, hc, if_false]
  refine ⟨_, ?_, rfl⟩
  congr 1

/-- C7: for a valid chord, an inversion with 0 < inversion < chord size
keeps the length and the pitch-class multiset, and an inversion ≥ chord
size is a no-op returning the root-position chord. -/
theorem generateChord_inversion_preserves (key : Key) (deg : Int)
    (q : Option ChordType) (inv : Nat) (oct : Int)
    (h1 : 1 ≤ deg) (h2 : deg ≤ 7) :
    ∃ root inverted,
      generateChord key deg q 0 oct = .ok root ∧
      generateChord key deg q inv oct = .ok inverted ∧
      (0 < inv ∧ inv < root.length →
        inverted.length = root.length ∧
        Multiset.ofList (inverted.map fun x => x % 12)
          = Multiset.ofList (root.map fun x => x % 12)) ∧
      (root.length ≤ inv → inverted = root) := by
  obtain ⟨midi, hroot, hinv⟩ := generateChord_ok_shape key deg q inv oct h1 h2
  refine ⟨midi, applyInversion inv midi, hroot, hinv, ?_, ?_⟩
  · rintro ⟨hpos, hlt⟩
    rw [applyInversion, if_pos ⟨hpos, hlt⟩]
    exact ⟨invertIter_length inv midi, invertIter_pitchClasses inv midi⟩
  · intro hge
    rw [applyInversion, if_neg (by omega)]

/-- C7 witness: C major triad, first inversion. -/
theorem generateChord_inversion_preserves_witness :
    (1 ≤ (1 : Int) ∧ (1 : Int) ≤ 7) ∧
    ∃ root inverted,
      generateChord .C 1 none 0 3 = .ok root ∧
      generateChord .C 1 none 1 3 = .ok inverted ∧
      (0 < 1 ∧ 1 < root.length →
        inverted.length = root.length ∧
        Multiset.ofList (inverted.map fun x => x % 12)
          = Multiset.ofList (root.map fun x => x % 12)) ∧
      (root.length ≤ 1 → inverted = root) :=
  ⟨⟨by decide, by decide⟩,
    generateChord_inversion_preserves .C 1 none 1 3 (by decide) (by decide)⟩

/-- C8: `generateChord` fails with `invalidDegree` exactly when the scale
degree is outside [1,7] — it never clamps, and never errors on 1..7. -/
theorem generateChord_invalidDegree_iff (key : Key) (deg : Int)
    (q : Option ChordType) (inv : Nat) (oct : Int) :
    generateChord key deg q inv oct = .error .invalidDegree
      ↔ (deg < 1 ∨ 7 < deg) := by
  rw [generateChord]
  by_cases h : deg < 1 ∨ deg > 7
  · rw [if_pos h]
    simpa using h
  · rw [if_neg h]
    constructor
    · intro hcon
      cases hcon
    · intro hcon
      exact absurd hcon h

/-! ### C9: tension curve at length 1 -/

/-- C9 (code bug evidence): at length = 1 the arc, wave, buildup and
release curves divide by (length − 1) = 0 and emit one non-finite (NaN)
entry, `[none]`, rather than a defined constant; only the `random` case
and the unknown-type fallback yield a finite value. -/
theorem generateTensionCurve_length_one_nan (sinPi : ℚ → ℚ) (rand : Nat → ℚ) :
    generateTensionCurve 1 "arc" sinPi rand = [none] ∧
    generateTensionCurve 1 "wave" sinPi rand = [none] ∧
    generateTensionCurve 1 "buildup" sinPi rand = [none] ∧
    generateTensionCurve 1 "release" sinPi rand = [none] ∧
    generateTensionCurve 1 "unknown-style" sinPi rand = [some 0.5] := by
  refine ⟨?_, ?_, ?_, ?_, rfl⟩ <;>
    simp [generateTensionCurve, jsDiv]

/-! ### C5: the weighted selection routine -/

theorem walkWeights_mem (l : List (Nat × ℚ)) :
    ∀ (u : ℚ) (k : Nat), walkWeights l u = some k → ∃ w, (k, w) ∈ l := by
  induction l with
  | nil =>
    intro u k h
    cases h
  | cons kw rest ih =>
    intro u k h
    obtain ⟨a, b⟩ := kw
    rw [walkWeights] at h
    by_cases hu : u - b ≤ 0
    · rw [if_pos hu] at h
      cases h
      exact ⟨b, List.mem_cons_self _ _⟩
    · rw [if_neg hu] at h
      obtain ⟨w, hw⟩ := ih (u - b) k h
      exact ⟨w, List.mem_cons_of_mem _ hw⟩

theorem weightedSelect_range (weights : List (Nat × ℚ)) (r : ℚ)
    (hkeys : ∀ kw ∈ weights, 1 ≤ kw.1 ∧ kw.1 ≤ 7) :
    1 ≤ weightedSelect weights r ∧ weightedSelect weights r ≤ 7 := by
  rw [weightedSelect]
  cases hw : walkWeights weights (r * totalWeight weights) with
  | none => simp
  | some k =>
    obtain ⟨w, hmem⟩ := walkWeights_mem weights _ k hw
    simpa using hkeys (k, w) hmem

/-- C5 counterexample: the weight map {4: 0} has zero total weight, yet
the routine returns 4 (the first entry), not the tonic 1. -/
theorem weightedSelect_zero_sum_counterexample :
    totalWeight [(4, 0)] = 0 ∧
    weightedSelect [(4, 0)] (1/2) = 4 ∧
    weightedSelect [(4, 0)] (1/2) ≠ 1 := by
  refine ⟨by norm_num [totalWeight], ?_, ?_⟩ <;>
    norm_num [weightedSelect, totalWeight, walkWeights]

/-- C5 amended: the routine never fails, but the zero-total fallback to
the tonic only fires when the weight map is empty; a non-empty zero-sum
map (with non-negative weights) returns its first entry's degree, which is
the tonic only if the tonic is the first entry. Whenever all keys are
scale degrees in [1,7] the result is a scale degree in [1,7]. -/
theorem weightedSelect_never_fails (weights : List (Nat × ℚ)) (r : ℚ) :
    (weights = [] → weightedSelect weights r = 1) ∧
    (∀ k w rest, weights = (k, w) :: rest → totalWeight weights = 0 →
      0 ≤ w → weightedSelect weights r = k) ∧
    ((∀ kw ∈ weights, 1 ≤ kw.1 ∧ kw.1 ≤ 7) →
      1 ≤ weightedSelect weights r ∧ weightedSelect weights r ≤ 7) := by
  refine ⟨?_, ?_, fun hkeys => weightedSelect_range weights r hkeys⟩
  · rintro rfl
    rfl
  · rintro k w rest rfl htot hw
    rw [weightedSelect, htot, mul_zero, walkWeights, if_pos (by linarith)]
    rfl

/-- C5 witness: the empty map falls back to the tonic, and {4: 0} returns
its first entry 4, a degree in [1,7]. -/
theorem weightedSelect_never_fails_witness :
    weightedSelect [] (1/2) = 1 ∧
    weightedSelect [(4, 0)] (1/2) = 4 ∧
    (1 ≤ weightedSelect [(4, 0)] (1/2) ∧ weightedSelect [(4, 0)] (1/2) ≤ 7) :=
  ⟨(weightedSelect_never_fails [] (1/2)).1 rfl,
   (weightedSelect_never_fails [(4, 0)] (1/2)).2.1 4 0 [] rfl
     (by norm_num [totalWeight]) (by norm_num),
   (weightedSelect_never_fails [(4, 0)] (1/2)).2.2 (by decide)⟩

/-! ### C4: the cadence post-pass is a single-slot frame modification -/

theorem lastFilledIdx?_spec (l : List GenerativeSlot) :
    ∀ i, lastFilledIdx? l = some i →
      ∃ s, l[i]? = some s ∧ s.degree.isSome := by
  induction l with
  | nil =>
    intro i h
    cases h
  | cons a rest ih =>
    intro i h
    rw [lastFilledIdx?] at h
    cases hr : lastFilledIdx? rest with
    | some j =>
      rw [hr] at h
      cases h
      obtain ⟨s, hs, hd⟩ := ih j hr
      exact ⟨s, by simpa using hs, hd⟩
    | none =>
      rw [hr] at h
      by_cases hd : a.degree.isSome
      · rw [if_pos hd] at h
        cases h
        exact ⟨a, by simp, hd⟩
      · rw [if_neg hd] at h
        cases h

/-- C4: for every slot list and every random outcome, the cadence
post-pass either returns the list unchanged, or — exactly when the final
non-rest slot's degree is neither 1 (I) nor 5 (V) and the draw is < 0.6 —
replaces only that slot, changing only its degree field to 1; every other
slot is untouched, and a final slot already holding I or V is never
touched. -/
theorem cadencePostPass_frame (result : List GenerativeSlot) (rand : ℚ) :
    (cadencePostPass result rand).length = result.length ∧
    (lastFilledIdx? result = none → cadencePostPass result rand = result) ∧
    ∀ i s, lastFilledIdx? result = some i → result[i]? = some s →
      ((s.degree = some 1 ∨ s.degree = some 5 ∨ ¬(rand < 0.6)) →
        cadencePostPass result rand = result) ∧
      (s.degree ≠ some 1 ∧ s.degree ≠ some 5 ∧ rand < 0.6 →
        cadencePostPass result rand
          = result.set i { s with degree := some 1 }) ∧
      (∀ j, j ≠ i → (cadencePostPass result rand)[j]? = result[j]?) := by
  refine ⟨?_, ?_, ?_⟩
  · unfold cadencePostPass
    split
    · rfl
    · split
      · rfl
      · split
        · exact List.length_set _ _ _
        · rfl
  · intro h0
    unfold cadencePostPass
    rw [h0]
  · intro i s h1 h2
    have heq : cadencePostPass result rand
        = if s.degree ≠ some 1 ∧ s.degree ≠ some 5 ∧ rand < 0.6
          then result.set i { s with degree := some 1 } else result := by
      unfold cadencePostPass
      rw [h1]
      simp only [h2]
    refine ⟨?_, ?_, ?_⟩
    · intro hcase
      rw [heq, if_neg]
      rintro ⟨ha, hb, hc⟩
      rcases hcase with h | h | h
      · exact ha h
      · exact hb h
      · exact h hc
    · intro hcond
      rw [heq, if_pos hcond]
    · intro j hj
      rw [heq]
      split
      · exact List.getElem?_set_ne (fun hij => hj hij.symm)
      · rfl

/-- C4 witness: a one-slot list holding degree 4 with a draw below 0.6 is
rewritten to degree 1, all other fields kept. -/
theorem cadencePostPass_frame_witness :
    (cadencePostPass [⟨0, some 4, 1, 1, 0.3, 0, 0.5⟩] 0).length = 1 ∧
    cadencePostPass [⟨0, some 4, 1, 1, 0.3, 0, 0.5⟩] 0
      = [⟨0, some 1, 1, 1, 0.3, 0, 0.5⟩] := by
  have h := cadencePostPass_frame [⟨0, some 4, 1, 1, 0.3, 0, 0.5⟩] 0
  refine ⟨h.1, ?_⟩
  have h2 := (h.2.2 0 ⟨0, some 4, 1, 1, 0.3, 0, 0.5⟩ rfl rfl).2.1
    ⟨by simp, by simp, by norm_num⟩
  simpa using h2

/-! ### Suggestion-engine lemmas (for C3, C6 and C10) -/

unseal Rat.ofScientific Rat.add Rat.mul Rat.sub Rat.inv

theorem rowLookup_mem (table : List (Nat × List (Nat × ℚ))) (k : Nat)
    (entries : List (Nat × ℚ)) (h : rowLookup table k = some entries) :
    ∃ row ∈ table, row.2 = entries := by
  rw [rowLookup] at h
  cases hf : table.find? (fun row => row.1 == k) with
  | none =>
    rw [hf] at h
    cases h
  | some row =>
    rw [hf] at h
    cases h
    exact ⟨row, List.mem_of_find?_eq_some hf, rfl⟩

theorem pairLookup_mem (table : List ((Nat × Nat) × List (Nat × ℚ)))
    (k : Nat × Nat) (entries : List (Nat × ℚ))
    (h : pairLookup table k = some entries) :
    ∃ row ∈ table, row.2 = entries := by
  rw [pairLookup] at h
  cases hf : table.find? (fun row => row.1 == k) with
  | none =>
    rw [hf] at h
    cases h
  | some row =>
    rw [hf] at h
    cases h
    exact ⟨row, List.mem_of_find?_eq_some hf, rfl⟩

theorem cellLookup_mem (row : List (Nat × ℚ)) (d : Nat) (x : ℚ)
    (h : cellLookup (some row) d = some x) : ∃ e ∈ row, e.2 = x := by
  rw [cellLookup] at h
  cases hf : row.find? (fun e => e.1 == d) with
  | none =>
    rw [Option.some_bind, hf] at h
    cases h
  | some e =>
    rw [Option.some_bind, hf] at h
    cases h
    exact ⟨e, List.mem_of_find?_eq_some hf, rfl⟩

theorem cellLookup_nonneg (row? : Option (List (Nat × ℚ))) (d : Nat)
    (hval : ∀ entries, row? = some entries → ∀ e ∈ entries, 0 ≤ e.2) :
    ∀ x, cellLookup row? d = some x → 0 ≤ x := by
  intro x hx
  cases row? with
  | none => cases hx
  | some entries =>
    obtain ⟨e, he, hex⟩ := cellLookup_mem entries d x hx
    subst hex
    exact hval entries rfl e he

theorem jsOr_pos (v : Option ℚ) (d : ℚ) (hd : 0 < d)
    (hv : ∀ x, v = some x → 0 ≤ x) : 0 < jsOr v d := by
  cases v with
  | none => simpa [jsOr] using hd
  | some x =>
    rw [jsOr]
    by_cases hx : x = 0
    · rw [if_pos hx]
      exact hd
    · rw [if_neg hx]
      exact lt_of_le_of_ne (hv x rfl) (Ne.symm hx)

theorem common_values_nonneg :
    ∀ row ∈ COMMON_PROGRESSIONS, ∀ e ∈ row.2, 0 ≤ e.2 := by decide

theorem second_values_nonneg :
    ∀ row ∈ SECOND_ORDER_PATTERNS, ∀ e ∈ row.2, 0 ≤ e.2 := by decide

theorem commonProb_pos (frm d : Nat) :
    0 < jsOr (cellLookup (rowLookup COMMON_PROGRESSIONS frm) d) 0.01 := by
  refine jsOr_pos _ _ (by norm_num) (cellLookup_nonneg _ _ ?_)
  intro entries hent
  obtain ⟨row, hm, h2⟩ := rowLookup_mem _ _ _ hent
  subst h2
  exact common_values_nonneg row hm

theorem secondProb_pos (k : Nat × Nat) (d : Nat) :
    0 < jsOr (cellLookup (pairLookup SECOND_ORDER_PATTERNS k) d) 0.01 := by
  refine jsOr_pos _ _ (by norm_num) (cellLookup_nonneg _ _ ?_)
  intro entries hent
  obtain ⟨row, hm, h2⟩ := pairLookup_mem _ _ _ hent
  subst h2
  exact second_values_nonneg row hm

theorem getCircleOfFifthsBonus_nonneg (a b : Int) :
    0 ≤ getCircleOfFifthsBonus a b := by
  unfold getCircleOfFifthsBonus
  split_ifs <;> norm_num

theorem getFunctionalHarmonyBonus_nonneg (a b : Int) :
    0 ≤ getFunctionalHarmonyBonus a b := by
  unfold getFunctionalHarmonyBonus
  split_ifs <;> norm_num

theorem scoreFor_pos (last : ChordHistory) (secondLast : Option ChordHistory)
    (r : Nat → ℚ) (d : Nat) (hr : 0 ≤ r d) :
    0 < (scoreFor last secondLast r d).score := by
  have h1 : 0 < jsOr (cellLookup (rowLookup COMMON_PROGRESSIONS last.degree) d) 0.01 * 0.40 :=
    mul_pos (commonProb_pos _ _) (by norm_num)
  have hf := getCircleOfFifthsBonus_nonneg (last.degree : Int) (d : Int)
  have hh : (0:ℚ) ≤ getFunctionalHarmonyBonus (last.degree : Int) (d : Int) * 0.7 :=
    mul_nonneg (getFunctionalHarmonyBonus_nonneg _ _) (by norm_num)
  have hrb : 0 < r d * 0.15 + 0.05 := by
    have := mul_nonneg hr (by norm_num : (0:ℚ) ≤ 0.15)
    linarith
  have hcx : (0:ℚ) ≤ (if d = 2 ∨ d = 6 then (0.1:ℚ) else 0) := by
    split_ifs <;> norm_num
  cases secondLast with
  | none =>
    dsimp only [scoreFor]
    linarith
  | some sl =>
    have h2 : 0 ≤ jsOr (cellLookup
        (pairLookup SECOND_ORDER_PATTERNS (sl.degree, last.degree)) d) 0.01 * 0.30 :=
      mul_nonneg (le_of_lt (secondProb_pos _ _)) (by norm_num)
    dsimp only [scoreFor]
    linarith

theorem totalScoreFor_pos (last : ChordHistory)
    (secondLast : Option ChordHistory) (r : Nat → ℚ) (hr : ∀ d, 0 ≤ r d) :
    0 < totalScoreFor last secondLast r := by
  unfold totalScoreFor
  apply List.sum_pos
  · intro x hx
    simp only [List.map_map, List.mem_map, List.mem_range, Function.comp] at hx
    obtain ⟨d, _, rfl⟩ := hx
    exact scoreFor_pos last secondLast r d (hr d)
  · simp

theorem sum_map_div (l : List ℚ) (t : ℚ) :
    (l.map fun x => x / t).sum = l.sum / t := by
  induction l with
  | nil => simp
  | cons a as ih => simp [ih, add_div]

/-! ### C3: probabilities normalize and categories follow the thresholds -/

/-- C3: for every non-empty history (and creativity draws in [0,1)), the
normalized probabilities of the full 7-degree distribution, before
sorting and top-4 truncation, sum to exactly 1, and every suggestion
returned by `suggestNextChords` carries the category determined by its
probability: strong if > 0.3, moderate if in (0.15, 0.3], else
adventurous. -/
theorem suggestNextChords_normalized (history : List ChordHistory)
    (shuffled : List ChordSuggestion) (r : Nat → ℚ)
    (hne : history ≠ []) (hr : ∀ d, 0 ≤ r d ∧ r d < 1) :
    (∀ last, history.getLast? = some last →
      ((fullSuggestions last (secondLastOf history) r).map
        fun s => s.probability).sum = 1) ∧
    (∀ s ∈ suggestNextChords history shuffled r,
      s.category = if s.probability > 0.3 then Category.strong
        else if s.probability > 0.15 then Category.moderate
        else Category.adventurous) := by
  constructor
  · intro last _
    have hT : 0 < totalScoreFor last (secondLastOf history) r :=
      totalScoreFor_pos last (secondLastOf history) r (fun d => (hr d).1)
    have hTdef : totalScoreFor last (secondLastOf history) r
        = ((List.range 7).map fun d =>
            (scoreFor last (secondLastOf history) r d).score).sum := by
      rw [totalScoreFor, List.map_map]
      rfl
    unfold fullSuggestions
    simp only [List.map_map, Function.comp_def]
    have hmaps : ((List.range 7).map fun d =>
        (scoreFor last (secondLastOf history) r d).score
          / totalScoreFor last (secondLastOf history) r)
        = (((List.range 7).map fun d =>
            (scoreFor last (secondLastOf history) r d).score).map
              fun x => x / totalScoreFor last (secondLastOf history) r) := by
      rw [List.map_map]
      rfl
    rw [hmaps, sum_map_div, ← hTdef, div_self (ne_of_gt hT)]
  · intro s hs
    unfold suggestNextChords at hs
    cases hl : history.getLast? with
    | none =>
      rw [List.getLast?_eq_none_iff] at hl
      exact absurd hl hne
    | some last =>
      simp only [hl] at hs
      have hs2 := List.mem_of_mem_take hs
      rw [byProbDesc, List.mem_mergeSort] at hs2
      unfold fullSuggestions at hs2
      simp only [List.mem_map, List.mem_range] at hs2
      obtain ⟨d, _, rfl⟩ := hs2
      rfl

/-- C3 witness: one-element history [I], zero creativity draws. -/
theorem suggestNextChords_normalized_witness :
    ([(⟨0, 0⟩ : ChordHistory)] ≠ []) ∧
    ((∀ last, [(⟨0, 0⟩ : ChordHistory)].getLast? = some last →
      ((fullSuggestions last (secondLastOf [⟨0, 0⟩]) fun _ => 0).map
        fun s => s.probability).sum = 1) ∧
    (∀ s ∈ suggestNextChords [⟨0, 0⟩] [] (fun _ => 0),
      s.category = if s.probability > 0.3 then Category.strong
        else if s.probability > 0.15 then Category.moderate
        else Category.adventurous)) :=
  ⟨by simp,
    suggestNextChords_normalized [⟨0, 0⟩] [] (fun _ => 0) (by simp)
      (fun d => ⟨le_refl 0, by norm_num⟩)⟩

/-! ### C6: empty-history suggestions -/

/-- C6: on an empty history, for every shuffle outcome (a permutation of
the fixed starter set) and every creativity draw, `suggestNextChords`
returns exactly 3 suggestions, each an entry of the fixed 5-entry starter
set (hence with its fixed probability, reason and category). -/
theorem suggestNextChords_empty_history (shuffled : List ChordSuggestion)
    (r : Nat → ℚ) (hperm : shuffled.Perm startOptions) :
    (suggestNextChords [] shuffled r).length = 3 ∧
    ∀ s ∈ suggestNextChords [] shuffled r, s ∈ startOptions := by
  have hlen : shuffled.length = 5 := by
    rw [hperm.length_eq]
    rfl
  have heq : suggestNextChords [] shuffled r = byProbDesc (shuffled.take 3) := rfl
  constructor
  · rw [heq, byProbDesc, List.length_mergeSort, List.length_take, hlen]
    omega
  · intro s hs
    rw [heq, byProbDesc, List.mem_mergeSort] at hs
    exact hperm.mem_iff.mp (List.mem_of_mem_take hs)

/-- C6 witness: the identity shuffle. -/
theorem suggestNextChords_empty_history_witness :
    startOptions.Perm startOptions ∧
    ((suggestNextChords [] startOptions fun _ => 0).length = 3 ∧
      ∀ s ∈ suggestNextChords [] startOptions fun _ => 0, s ∈ startOptions) :=
  ⟨List.Perm.refl _,
    suggestNextChords_empty_history startOptions (fun _ => 0) (List.Perm.refl _)⟩

/-! ### C10: degree encodings of the two subsystems -/

theorem markov1_keys :
    ∀ row ∈ MARKOV_1ST_ORDER, ∀ e ∈ row.2, 1 ≤ e.1 ∧ e.1 ≤ 7 := by decide

theorem markov2_keys :
    ∀ row ∈ MARKOV_2ND_ORDER, ∀ e ∈ row.2, 1 ≤ e.1 ∧ e.1 ≤ 7 := by decide

theorem startOptions_degrees : ∀ s ∈ startOptions, s.degree < 7 := by decide

theorem markovWeights_keys (prev pp : Option Nat) :
    ∀ kw ∈ markovWeights prev pp, 1 ≤ kw.1 ∧ kw.1 ≤ 7 := by
  intro kw hkw
  cases prev with
  | none =>
    simp only [markovWeights.eq_def] at hkw
    rw [objEntries, List.mem_mergeSort] at hkw
    fin_cases hkw <;> simp
  | some p =>
    simp only [markovWeights.eq_def] at hkw
    have fallback : kw ∈ objEntries ((rowLookup MARKOV_1ST_ORDER p).getD [])
        → 1 ≤ kw.1 ∧ kw.1 ≤ 7 := by
      intro hkw2
      rw [objEntries, List.mem_mergeSort] at hkw2
      cases hrl : rowLookup MARKOV_1ST_ORDER p with
      | some row =>
        rw [hrl, Option.getD_some] at hkw2
        obtain ⟨r, hr, h2⟩ := rowLookup_mem _ _ _ hrl
        subst h2
        exact markov1_keys r hr kw hkw2
      | none =>
        rw [hrl, Option.getD_none] at hkw2
        exact absurd hkw2 (List.not_mem_nil kw)
    cases pp with
    | some sp =>
      cases hvp : pairLookup MARKOV_2ND_ORDER (sp, p) with
      | some row =>
        simp only [hvp] at hkw
        rw [objEntries, List.mem_mergeSort] at hkw
        obtain ⟨r, hr, h2⟩ := pairLookup_mem _ _ _ hvp
        subst h2
        exact markov2_keys r hr kw hkw
      | none =>
        simp only [hvp] at hkw
        exact fallback hkw
    | none =>
      simp only [] at hkw
      exact fallback hkw

theorem adjustWeightsForTension_keys (t : ℚ) (w : List (Nat × ℚ))
    (P : Nat → Prop) (hw : ∀ kw ∈ w, P kw.1) :
    ∀ kw ∈ adjustWeightsForTension t w, P kw.1 := by
  intro kw hkw
  obtain ⟨kw0, h0, rfl⟩ := List.mem_map.mp hkw
  exact hw kw0 h0

theorem applyCreativityBoost_keys (c : ℚ) (rand : Nat → ℚ)
    (w : List (Nat × ℚ)) (P : Nat → Prop) (hw : ∀ kw ∈ w, P kw.1) :
    ∀ kw ∈ applyCreativityBoost c rand w, P kw.1 := by
  intro kw hkw
  rw [applyCreativityBoost] at hkw
  split at hkw
  · obtain ⟨kw0, h0, rfl⟩ := List.mem_map.mp hkw
    exact hw kw0 h0
  · exact hw kw hkw

theorem selectChordForTension_range (t : ℚ) (prev pp : Option Nat) (c : ℚ)
    (rand : Nat → ℚ) (rsel : ℚ) :
    1 ≤ selectChordForTension t prev pp c rand rsel ∧
      selectChordForTension t prev pp c rand rsel ≤ 7 := by
  rw [selectChordForTension]
  apply weightedSelect_range
  exact applyCreativityBoost_keys c rand _ (fun k => 1 ≤ k ∧ k ≤ 7)
    (adjustWeightsForTension_keys t _ (fun k => 1 ≤ k ∧ k ≤ 7)
      (markovWeights_keys prev pp))

theorem generateChord_ok_iff (key : Key) (deg : Int) (q : Option ChordType)
    (inv : Nat) (oct : Int) :
    (∃ l, generateChord key deg q inv oct = .ok l) ↔ (1 ≤ deg ∧ deg ≤ 7) := by
  rw [generateChord]
  by_cases h : deg < 1 ∨ deg > 7
  · rw [if_pos h]
    constructor
    · rintro ⟨l, hl⟩
      cases hl
    · intro hc
      omega
  · rw [if_neg h]
    constructor
    · intro _
      omega
    · intro _
      exact ⟨_, rfl⟩

/-- C10: every suggestion the engine returns (on any history, any shuffle
outcome and any creativity draws) carries a 0-based degree in [0,6], as
does the starter set; the chord model accepts exactly the 1-based
Nashville degrees [1,7], and the batch generator's chord selection always
yields a 1-based degree in [1,7]. -/
theorem degree_encoding_conventions :
    (∀ (history : List ChordHistory) (shuffled : List ChordSuggestion)
        (r : Nat → ℚ), shuffled.Perm startOptions →
      ∀ s ∈ suggestNextChords history shuffled r, s.degree < 7) ∧
    (∀ s ∈ startOptions, s.degree < 7) ∧
    (∀ (key : Key) (deg : Int) (q : Option ChordType) (inv : Nat) (oct : Int),
      (∃ l, generateChord key deg q inv oct = .ok l) ↔ (1 ≤ deg ∧ deg ≤ 7)) ∧
    (∀ (t : ℚ) (prev pp : Option Nat) (c : ℚ) (rand : Nat → ℚ) (rsel : ℚ),
      1 ≤ selectChordForTension t prev pp c rand rsel ∧
        selectChordForTension t prev pp c rand rsel ≤ 7) := by
  refine ⟨?_, startOptions_degrees, generateChord_ok_iff,
    selectChordForTension_range⟩
  intro history shuffled r hperm s hs
  unfold suggestNextChords at hs
  cases hl : history.getLast? with
  | none =>
    simp only [hl] at hs
    rw [byProbDesc, List.mem_mergeSort] at hs
    exact startOptions_degrees s (hperm.mem_iff.mp (List.mem_of_mem_take hs))
  | some last =>
    simp only [hl] at hs
    have hs2 := List.mem_of_mem_take hs
    rw [byProbDesc, List.mem_mergeSort] at hs2
    unfold fullSuggestions at hs2
    simp only [List.mem_map, List.mem_range] at hs2
    obtain ⟨d, hd, rfl⟩ := hs2
    exact hd

/-- C10 witness: the identity shuffle on an empty history, and the C
major chord at degree 1. -/
theorem degree_encoding_conventions_witness :
    startOptions.Perm startOptions ∧
    (∀ s ∈ suggestNextChords [] startOptions fun _ => 0, s.degree < 7) ∧
    (1 ≤ (1 : Int) ∧ (1 : Int) ≤ 7) ∧
    (∃ l, generateChord .C 1 none 0 3 = .ok l) :=
  ⟨List.Perm.refl _,
   degree_encoding_conventions.1 [] startOptions (fun _ => 0) (List.Perm.refl _),
   ⟨by decide, by decide⟩,
   (degree_encoding_conventions.2.2.1 .C 1 none 0 3).mpr ⟨by decide, by decide⟩⟩

end Webchord
